import Mathlib

/-!
Verification of the mortgage amortization program (`Mortgage_Algo.py`).

The program is shallowly embedded: Python floats become exact rationals
(`ℚ`), the lump-sum dictionary becomes an association list, Python's
`ZeroDivisionError` and `IndexError` become `Option` failures, and the
`for`-loop with `break` in `amortization_schedule` becomes a fuel-indexed
recursion (the fuel is the number of remaining loop iterations, so the
recursion performs exactly the iterations the source loop performs).
-/

/-- State of the Python `Mortgage` object after `__init__` has run:
`principal`, `annual_rate` (already divided by 100), `years`,
`compounds_per_year`, the derived `monthly_rate`, `total_periods`, and the
derived fixed `monthly_payment`. -/
structure Mortgage where
  principal : ℚ
  annual_rate : ℚ
  years : ℚ
  compounds_per_year : ℕ
  monthly_rate : ℚ
  total_periods : ℕ
  monthly_payment : ℚ
  deriving DecidableEq

/-- Python's `_calc_periodic_payment`: the annuity formula
`P * (r * (1 + r) ** n) / ((1 + r) ** n - 1)`.  Python raises
`ZeroDivisionError` when the denominator is zero, modelled as `none`. -/
def calc_periodic_payment (P r : ℚ) (n : ℕ) : Option ℚ :=
  if (1 + r) ^ n - 1 = 0 then none
  else some (P * (r * (1 + r) ^ n) / ((1 + r) ^ n - 1))

/-- Python's `Mortgage.__init__`: stores the terms, derives
`monthly_rate = (annual_rate / 100) / compounds_per_year`,
`total_periods = int(years * compounds_per_year)` and the periodic payment.
A `ZeroDivisionError` from the payment formula is modelled as `none`. -/
def mkMortgage (principal annual_rate years : ℚ) (compounds_per_year : ℕ) : Option Mortgage :=
  let ar := annual_rate / 100
  let monthly_rate := ar / (compounds_per_year : ℚ)
  let total_periods := (⌊years * (compounds_per_year : ℚ)⌋).toNat
  (calc_periodic_payment principal monthly_rate total_periods).map
    (fun mp =>
      { principal := principal, annual_rate := ar, years := years,
        compounds_per_year := compounds_per_year, monthly_rate := monthly_rate,
        total_periods := total_periods, monthly_payment := mp })

/-- One row of the amortization schedule (the dict appended in the loop
body of `amortization_schedule`). -/
structure Entry where
  period : ℕ
  payment : ℚ
  interest : ℚ
  principal : ℚ
  extra : ℚ
  balance : ℚ
  deriving DecidableEq

/-- Dictionary lookup `lumpsum_extras.get(period, 0.0)`: association-list lookup with
default `0`. -/
def dictGet : List (ℕ × ℚ) → ℕ → ℚ
  | [], _ => 0
  | (k, v) :: rest, q => if q = k then v else dictGet rest q

/-- The extra amount for one period:
`recurring_extra + lumpsum_extras.get(period, 0.0)`. -/
def entry_extra (recurring_extra : ℚ) (lumpsum_extras : List (ℕ × ℚ)) (period : ℕ) : ℚ :=
  recurring_extra + dictGet lumpsum_extras period

/-- The entry appended by one iteration of the loop body of
`amortization_schedule`, given the balance at the start of the period.
The `if` is the early-payoff check of the source (strict `>`), the two
branches reassign `principal_paid`, `payment` and `extra` exactly as the
source does, and the stored balance is `max(balance, 0.0)` after the
update `balance -= principal_paid + extra`. -/
def mkEntry (m : Mortgage) (recurring_extra : ℚ) (lumpsum_extras : List (ℕ × ℚ))
    (period : ℕ) (balance : ℚ) : Entry :=
  let interest := balance * m.monthly_rate
  let principal_paid := m.monthly_payment - interest
  let extra := entry_extra recurring_extra lumpsum_extras period
  if principal_paid + extra > balance then
    { period := period, payment := balance + interest, interest := interest,
      principal := balance, extra := 0, balance := max (balance - (balance + 0)) 0 }
  else
    { period := period, payment := m.monthly_payment + extra, interest := interest,
      principal := principal_paid, extra := extra,
      balance := max (balance - (principal_paid + extra)) 0 }

/-- The (unclamped) balance after one iteration of the loop body: this is
the value of the Python variable `balance` after `balance -= principal_paid
+ extra`, used by the `if balance <= 0: break` test. -/
def nextBalance (m : Mortgage) (recurring_extra : ℚ) (lumpsum_extras : List (ℕ × ℚ))
    (period : ℕ) (balance : ℚ) : ℚ :=
  let interest := balance * m.monthly_rate
  let principal_paid := m.monthly_payment - interest
  let extra := entry_extra recurring_extra lumpsum_extras period
  if principal_paid + extra > balance then balance - (balance + 0)
  else balance - (principal_paid + extra)

/-- The loop `for period in range(1, total_periods + 1)` of
`amortization_schedule`, with `break` once the balance is `≤ 0`.  `fuel`
is the number of loop iterations still available. -/
def schedAux (m : Mortgage) (recurring_extra : ℚ) (lumpsum_extras : List (ℕ × ℚ)) :
    ℕ → ℕ → ℚ → List Entry
  | 0, _, _ => []
  | fuel + 1, period, balance =>
    let e := mkEntry m recurring_extra lumpsum_extras period balance
    let b := nextBalance m recurring_extra lumpsum_extras period balance
    if b ≤ 0 then [e]
    else e :: schedAux m recurring_extra lumpsum_extras fuel (period + 1) b

/-- Python's `Mortgage.amortization_schedule`. -/
def amortization_schedule (m : Mortgage) (recurring_extra : ℚ := 0)
    (lumpsum_extras : List (ℕ × ℚ) := []) : List Entry :=
  schedAux m recurring_extra lumpsum_extras m.total_periods 1 m.principal

/-- The summary dict returned by `summarize_schedule`. -/
structure Summary where
  total_paid : ℚ
  total_interest : ℚ
  periods_used : ℕ
  deriving DecidableEq

/-- Python's `Mortgage.summarize_schedule`: sums of the `payment` and `interest`
fields and the period of the last entry.  Python raises `IndexError` on an
empty schedule (`schedule[-1]`), modelled as `none`. -/
def summarize_schedule (schedule : List Entry) : Option Summary :=
  match schedule.getLast? with
  | none => none
  | some last =>
    some { total_paid := (schedule.map Entry.payment).sum,
           total_interest := (schedule.map Entry.interest).sum,
           periods_used := last.period }

/-- The quantity `remaining_periods = self.total_periods - start_period + 1` (a Python
`int`, so a genuine integer that can be `≤ 0`). -/
def remainingPeriods (m : Mortgage) (start_period : ℕ) : ℤ :=
  (m.total_periods : ℤ) - (start_period : ℤ) + 1

/-- The count `years = math.ceil((total_periods - start_period + 1) / compounds_per_year)`. -/
def annualYears (m : Mortgage) (start_period : ℕ) : ℤ :=
  ⌈((remainingPeriods m start_period : ℚ)) / (m.compounds_per_year : ℚ)⌉

/-- The dict comprehension building the annual lump sums of strategy 3:
one installment of `total_extra_budget / years` at
`start_period + i * compounds_per_year` for `i in range(years)`, skipping
keys beyond `total_periods`. -/
def annualLumpsums (m : Mortgage) (total_extra_budget : ℚ) (start_period : ℕ) :
    List (ℕ × ℚ) :=
  (List.range (annualYears m start_period).toNat).filterMap
    (fun i =>
      if start_period + i * m.compounds_per_year ≤ m.total_periods then
        some (start_period + i * m.compounds_per_year,
              total_extra_budget / ((annualYears m start_period : ℚ)))
      else none)

/-- Python's `min(results.items(), key=lambda kv: kv[1]["total_interest"])`:
Python's `min` keeps the first element attaining the minimum, i.e. it
replaces the current best only on a strictly smaller key. -/
def minByTI (results : List (String × Summary)) : Option (String × Summary) :=
  match results with
  | [] => none
  | x :: xs =>
    some (xs.foldl
      (fun best kv => if kv.2.total_interest < best.2.total_interest then kv else best) x)

/-- Python's `Mortgage.optimize_extra`: evaluates the three strategies in source
order and selects the minimizer of `total_interest`.  Python exceptions
(empty-schedule `IndexError`, `ZeroDivisionError` from `budget / years`
when `years == 0`) are modelled as `none`. -/
def optimize_extra (m : Mortgage) (total_extra_budget : ℚ) (start_period : ℕ) :
    Option (String × Summary) :=
  match summarize_schedule
      (amortization_schedule m 0 [(start_period, total_extra_budget)]) with
  | none => none
  | some s1 =>
    let results1 := [("single_lumpsum", s1)]
    match (if 0 < remainingPeriods m start_period then
            (summarize_schedule (amortization_schedule m
                (total_extra_budget / ((remainingPeriods m start_period : ℚ))) [])).map
              (fun s2 => results1 ++ [("uniform_monthly", s2)])
          else some results1) with
    | none => none
    | some results2 =>
      if annualYears m start_period = 0 then none
      else
        match summarize_schedule
            (amortization_schedule m 0 (annualLumpsums m total_extra_budget start_period)) with
        | none => none
        | some s3 => minByTI (results2 ++ [("annual_lumpsum", s3)])

/-- The no-extra balance recursion: the balance after `k` periods when no
extras are paid and no cap ever triggers.  One step is
`b * (1 + r) - monthly_payment`, matching the loop body with
`extra = 0` in the non-capped branch. -/
def idealBal (m : Mortgage) : ℕ → ℚ
  | 0 => m.principal
  | k + 1 => idealBal m k * (1 + m.monthly_rate) - m.monthly_payment

/-- The annuity value `P * (r * (1 + r) ** n) / ((1 + r) ** n - 1)` that
`_calc_periodic_payment` returns when its denominator is nonzero. -/
def annuityPayment (P r : ℚ) (n : ℕ) : ℚ :=
  P * (r * (1 + r) ^ n) / ((1 + r) ^ n - 1)

/-- A concrete two-period loan: `Mortgage(100, 120, 1/6, 12)`, that is,
`principal = 100`, `monthly_rate = 1/10`, `total_periods = 2`, periodic
payment `1210/21`. -/
def mortgageTwo : Mortgage :=
  { principal := 100, annual_rate := 6/5, years := 1/6, compounds_per_year := 12,
    monthly_rate := 1/10, total_periods := 2, monthly_payment := 1210/21 }

/-- A concrete one-period loan: `Mortgage(100, 120, 1/12, 12)`, that is,
`principal = 100`, `monthly_rate = 1/10`, `total_periods = 1`, periodic
payment `110`. -/
def mortgageOne : Mortgage :=
  { principal := 100, annual_rate := 6/5, years := 1/12, compounds_per_year := 12,
    monthly_rate := 1/10, total_periods := 1, monthly_payment := 110 }

/-- A concrete loan with `compounds_per_year = 1` and a single period,
used to exercise `optimize_extra` with `start_period` beyond the term. -/
def mortgageYearly : Mortgage :=
  { principal := 100, annual_rate := 6/5, years := 1, compounds_per_year := 1,
    monthly_rate := 1/10, total_periods := 1, monthly_payment := 110 }

/-- The first entry of the no-extra schedule of `mortgageTwo`. -/
def entryTwoFirst : Entry :=
  { period := 1, payment := 1210/21, interest := 10, principal := 1000/21,
    extra := 0, balance := 1100/21 }

/-! ### Basic facts about one loop iteration -/

/-- The balance at the start of an entry's period, reconstructed from the
entry: in both branches of the loop body,
`principal + extra + stored balance` equals the balance the period began
with. -/
def preBal (e : Entry) : ℚ :=
  e.principal + e.extra + e.balance

theorem dictGet_nil (q : ℕ) : dictGet [] q = 0 := rfl

theorem dictGet_nonneg {d : List (ℕ × ℚ)} (h : ∀ kv ∈ d, 0 ≤ kv.2) (q : ℕ) :
    0 ≤ dictGet d q := by
  induction d with
  | nil => exact le_refl 0
  | cons kv rest ih =>
    obtain ⟨k, v⟩ := kv
    by_cases hq : q = k
    · simpa [dictGet, hq] using h (k, v) (List.mem_cons_self _ _)
    · simp only [dictGet, if_neg hq]
      exact ih (fun kv hkv => h kv (List.mem_cons_of_mem _ hkv)) 

theorem entry_extra_nonneg {re : ℚ} {ls : List (ℕ × ℚ)}
    (hre : 0 ≤ re) (hls : ∀ kv ∈ ls, 0 ≤ kv.2) (q : ℕ) :
    0 ≤ entry_extra re ls q :=
  add_nonneg hre (dictGet_nonneg hls q)

theorem entry_extra_nil (q : ℕ) : entry_extra 0 [] q = 0 := by
  simp [entry_extra, dictGet]

theorem mkEntry_eq_cap {m : Mortgage} {re : ℚ} {ls : List (ℕ × ℚ)} {p : ℕ} {b : ℚ}
    (h : m.monthly_payment - b * m.monthly_rate + entry_extra re ls p > b) :
    mkEntry m re ls p b =
      { period := p, payment := b + b * m.monthly_rate, interest := b * m.monthly_rate,
        principal := b, extra := 0, balance := 0 } := by
  simp only [mkEntry, if_pos h]
  simp

theorem mkEntry_eq_nocap {m : Mortgage} {re : ℚ} {ls : List (ℕ × ℚ)} {p : ℕ} {b : ℚ}
    (h : ¬ m.monthly_payment - b * m.monthly_rate + entry_extra re ls p > b) :
    mkEntry m re ls p b =
      { period := p, payment := m.monthly_payment + entry_extra re ls p,
        interest := b * m.monthly_rate,
        principal := m.monthly_payment - b * m.monthly_rate,
        extra := entry_extra re ls p,
        balance := max (b - (m.monthly_payment - b * m.monthly_rate + entry_extra re ls p)) 0 } := by
  simp only [mkEntry, if_neg h]

theorem nextBalance_eq_cap {m : Mortgage} {re : ℚ} {ls : List (ℕ × ℚ)} {p : ℕ} {b : ℚ}
    (h : m.monthly_payment - b * m.monthly_rate + entry_extra re ls p > b) :
    nextBalance m re ls p b = 0 := by
  simp only [nextBalance, if_pos h]
  ring

theorem nextBalance_eq_nocap {m : Mortgage} {re : ℚ} {ls : List (ℕ × ℚ)} {p : ℕ} {b : ℚ}
    (h : ¬ m.monthly_payment - b * m.monthly_rate + entry_extra re ls p > b) :
    nextBalance m re ls p b =
      b - (m.monthly_payment - b * m.monthly_rate + entry_extra re ls p) := by
  simp only [nextBalance, if_neg h]

theorem nextBalance_nonneg (m : Mortgage) (re : ℚ) (ls : List (ℕ × ℚ)) (p : ℕ) (b : ℚ) :
    0 ≤ nextBalance m re ls p b := by
  by_cases h : m.monthly_payment - b * m.monthly_rate + entry_extra re ls p > b
  · rw [nextBalance_eq_cap h]
  · rw [nextBalance_eq_nocap h]
    exact sub_nonneg.2 (not_lt.1 h)

theorem mkEntry_period (m : Mortgage) (re : ℚ) (ls : List (ℕ × ℚ)) (p : ℕ) (b : ℚ) :
    (mkEntry m re ls p b).period = p := by
  by_cases h : m.monthly_payment - b * m.monthly_rate + entry_extra re ls p > b
  · rw [mkEntry_eq_cap h]
  · rw [mkEntry_eq_nocap h]

theorem mkEntry_interest (m : Mortgage) (re : ℚ) (ls : List (ℕ × ℚ)) (p : ℕ) (b : ℚ) :
    (mkEntry m re ls p b).interest = b * m.monthly_rate := by
  by_cases h : m.monthly_payment - b * m.monthly_rate + entry_extra re ls p > b
  · rw [mkEntry_eq_cap h]
  · rw [mkEntry_eq_nocap h]

theorem mkEntry_balance (m : Mortgage) (re : ℚ) (ls : List (ℕ × ℚ)) (p : ℕ) (b : ℚ) :
    (mkEntry m re ls p b).balance = max (nextBalance m re ls p b) 0 := by
  by_cases h : m.monthly_payment - b * m.monthly_rate + entry_extra re ls p > b
  · rw [mkEntry_eq_cap h, nextBalance_eq_cap h]
    simp
  · rw [mkEntry_eq_nocap h, nextBalance_eq_nocap h]

theorem preBal_mkEntry (m : Mortgage) (re : ℚ) (ls : List (ℕ × ℚ)) (p : ℕ) (b : ℚ) :
    preBal (mkEntry m re ls p b) = b := by
  by_cases h : m.monthly_payment - b * m.monthly_rate + entry_extra re ls p > b
  · rw [mkEntry_eq_cap h]
    simp [preBal]
  · rw [mkEntry_eq_nocap h]
    have h0 : 0 ≤ b - (m.monthly_payment - b * m.monthly_rate + entry_extra re ls p) :=
      sub_nonneg.2 (not_lt.1 h)
    simp only [preBal, max_eq_left h0]
    ring

theorem mkEntry_payment_eq (m : Mortgage) (re : ℚ) (ls : List (ℕ × ℚ)) (p : ℕ) (b : ℚ) :
    (mkEntry m re ls p b).payment =
      (mkEntry m re ls p b).interest + (mkEntry m re ls p b).principal +
        (mkEntry m re ls p b).extra := by
  by_cases h : m.monthly_payment - b * m.monthly_rate + entry_extra re ls p > b
  · rw [mkEntry_eq_cap h]
    ring
  · rw [mkEntry_eq_nocap h]
    ring

/-! ### Structural facts about the schedule loop -/

theorem schedAux_zero (m : Mortgage) (re : ℚ) (ls : List (ℕ × ℚ)) (p : ℕ) (b : ℚ) :
    schedAux m re ls 0 p b = [] := rfl

theorem schedAux_succ (m : Mortgage) (re : ℚ) (ls : List (ℕ × ℚ)) (fuel p : ℕ) (b : ℚ) :
    schedAux m re ls (fuel + 1) p b =
      if nextBalance m re ls p b ≤ 0 then [mkEntry m re ls p b]
      else mkEntry m re ls p b :: schedAux m re ls fuel (p + 1) (nextBalance m re ls p b) := rfl

theorem schedAux_ne_nil (m : Mortgage) (re : ℚ) (ls : List (ℕ × ℚ)) (fuel p : ℕ) (b : ℚ) :
    schedAux m re ls (fuel + 1) p b ≠ [] := by
  rw [schedAux_succ]
  split <;> simp

theorem schedAux_length_le (m : Mortgage) (re : ℚ) (ls : List (ℕ × ℚ)) :
    ∀ fuel p b, (schedAux m re ls fuel p b).length ≤ fuel := by
  intro fuel
  induction fuel with
  | zero => intro p b; simp [schedAux_zero]
  | succ fuel ih =>
    intro p b
    rw [schedAux_succ]
    split
    · simp
    · simpa using ih (p + 1) (nextBalance m re ls p b)

theorem schedAux_mem_period (m : Mortgage) (re : ℚ) (ls : List (ℕ × ℚ)) :
    ∀ fuel p b, ∀ e ∈ schedAux m re ls fuel p b, p ≤ e.period ∧ e.period < p + fuel := by
  intro fuel
  induction fuel with
  | zero => intro p b e he; simp [schedAux_zero] at he
  | succ fuel ih =>
    intro p b e he
    rw [schedAux_succ] at he
    split at he
    · rcases List.mem_singleton.1 he with rfl
      rw [mkEntry_period]
      omega
    · rcases List.mem_cons.1 he with rfl | he
      · rw [mkEntry_period]
        omega
      · rcases ih (p + 1) (nextBalance m re ls p b) e he with ⟨h1, h2⟩
        omega

theorem schedAux_mem_payment (m : Mortgage) (re : ℚ) (ls : List (ℕ × ℚ)) :
    ∀ fuel p b, ∀ e ∈ schedAux m re ls fuel p b,
      e.payment = e.interest + e.principal + e.extra := by
  intro fuel
  induction fuel with
  | zero => intro p b e he; simp [schedAux_zero] at he
  | succ fuel ih =>
    intro p b e he
    rw [schedAux_succ] at he
    split at he
    · rcases List.mem_singleton.1 he with rfl
      exact mkEntry_payment_eq m re ls p b
    · rcases List.mem_cons.1 he with rfl | he
      · exact mkEntry_payment_eq m re ls p b
      · exact ih (p + 1) (nextBalance m re ls p b) e he

theorem schedAux_get_zero (m : Mortgage) (re : ℚ) (ls : List (ℕ × ℚ)) (fuel p : ℕ) (b : ℚ) :
    (schedAux m re ls (fuel + 1) p b).get? 0 = some (mkEntry m re ls p b) := by
  rw [schedAux_succ]
  split <;> rfl

theorem getLast?_cons_of_ne_nil {α : Type} (a : α) {l : List α} (h : l ≠ []) :
    (a :: l).getLast? = l.getLast? := by
  cases l with
  | nil => exact absurd rfl h
  | cons b t => exact List.getLast?_cons_cons

/-- Every entry of the schedule is the entry the loop body builds from its
own period and from the balance that period began with (reconstructed as
`preBal`), and an entry after which the loop would `break` is the last
entry of the schedule. -/
theorem schedAux_entry_spec (m : Mortgage) (re : ℚ) (ls : List (ℕ × ℚ)) :
    ∀ fuel p b j e, (schedAux m re ls fuel p b).get? j = some e →
      e = mkEntry m re ls e.period (preBal e) ∧
      (nextBalance m re ls e.period (preBal e) ≤ 0 →
        j + 1 = (schedAux m re ls fuel p b).length) := by
  intro fuel
  induction fuel with
  | zero => intro p b j e he; simp [schedAux_zero] at he
  | succ fuel ih =>
    intro p b j e he
    by_cases hb : nextBalance m re ls p b ≤ 0
    · rw [schedAux_succ, if_pos hb] at he ⊢
      cases j with
      | zero =>
        rw [List.get?_cons_zero] at he
        cases he
        constructor
        · rw [mkEntry_period, preBal_mkEntry]
        · intro _; rfl
      | succ j => simp at he
    · rw [schedAux_succ, if_neg hb] at he ⊢
      cases j with
      | zero =>
        rw [List.get?_cons_zero] at he
        cases he
        constructor
        · rw [mkEntry_period, preBal_mkEntry]
        · intro hcontra
          rw [mkEntry_period, preBal_mkEntry] at hcontra
          exact absurd hcontra hb
      | succ j =>
        rw [List.get?_cons_succ] at he
        rcases ih (p + 1) (nextBalance m re ls p b) j e he with ⟨h1, h2⟩
        refine ⟨h1, fun hz => ?_⟩
        have := h2 hz
        simp only [List.length_cons]
        omega

/-- Entries that are followed by another entry (non-final entries) have a
strictly positive stored balance. -/
theorem schedAux_nonfinal_pos (m : Mortgage) (re : ℚ) (ls : List (ℕ × ℚ)) :
    ∀ fuel p b j e es, (schedAux m re ls fuel p b).get? j = some e →
      (schedAux m re ls fuel p b).get? (j + 1) = some es → 0 < e.balance := by
  intro fuel
  induction fuel with
  | zero => intro p b j e es he _; simp [schedAux_zero] at he
  | succ fuel ih =>
    intro p b j e es he hes
    by_cases hb : nextBalance m re ls p b ≤ 0
    · rw [schedAux_succ, if_pos hb] at he hes
      cases j with
      | zero => simp at hes
      | succ j => simp at he
    · rw [schedAux_succ, if_neg hb] at he hes
      cases j with
      | zero =>
        rw [List.get?_cons_zero] at he
        cases he
        rw [mkEntry_balance]
        have h0 : 0 < nextBalance m re ls p b := lt_of_not_le hb
        rw [max_eq_left (le_of_lt h0)]
        exact h0
      | succ j =>
        rw [List.get?_cons_succ] at he hes
        exact ih (p + 1) (nextBalance m re ls p b) j e es he hes

theorem summarize_schedule_eq_some {schedule : List Entry} {last : Entry}
    (h : schedule.getLast? = some last) :
    summarize_schedule schedule =
      some { total_paid := (schedule.map Entry.payment).sum,
             total_interest := (schedule.map Entry.interest).sum,
             periods_used := last.period } := by
  rw [summarize_schedule, h]

theorem getLast?_isSome_of_ne_nil {α : Type} {l : List α} (h : l ≠ []) :
    ∃ a, l.getLast? = some a := by
  cases l with
  | nil => exact absurd rfl h
  | cons b t => exact ⟨(b :: t).getLast (by simp), List.getLast?_eq_getLast _ _⟩

/-! ### The no-extra balance sequence and its closed form -/

theorem one_lt_pow_one_add {r : ℚ} (hr : 0 < r) {n : ℕ} (hn : n ≠ 0) :
    1 < (1 + r) ^ n :=
  one_lt_pow₀ (by linarith) hn

theorem pow_one_add_lt {r : ℚ} (hr : 0 < r) {k n : ℕ} (hkn : k < n) :
    (1 + r) ^ k < (1 + r) ^ n := by
  have hpos : (0:ℚ) < (1 + r) ^ k := pow_pos (by linarith) k
  calc (1 + r) ^ k = (1 + r) ^ k * 1 := (mul_one _).symm
    _ < (1 + r) ^ k * (1 + r) ^ (n - k) := by
        exact mul_lt_mul_of_pos_left (one_lt_pow_one_add hr (by omega)) hpos
    _ = (1 + r) ^ n := by rw [← pow_add]; congr 1; omega

theorem idealBal_closed {m : Mortgage} (hr : 0 < m.monthly_rate)
    (hn : 1 ≤ m.total_periods)
    (hmp : m.monthly_payment =
      annuityPayment m.principal m.monthly_rate m.total_periods) (k : ℕ) :
    idealBal m k =
      m.principal *
        ((1 + m.monthly_rate) ^ m.total_periods - (1 + m.monthly_rate) ^ k) /
        ((1 + m.monthly_rate) ^ m.total_periods - 1) := by
  have hQ : (1:ℚ) < (1 + m.monthly_rate) ^ m.total_periods :=
    one_lt_pow_one_add hr (by omega)
  have hQne : (1 + m.monthly_rate) ^ m.total_periods - 1 ≠ 0 :=
    ne_of_gt (sub_pos.2 hQ)
  induction k with
  | zero =>
    rw [idealBal]
    field_simp
  | succ k ih =>
    rw [idealBal, ih, hmp, annuityPayment]
    field_simp
    ring

theorem idealBal_last {m : Mortgage} (hr : 0 < m.monthly_rate)
    (hn : 1 ≤ m.total_periods)
    (hmp : m.monthly_payment =
      annuityPayment m.principal m.monthly_rate m.total_periods) :
    idealBal m m.total_periods = 0 := by
  rw [idealBal_closed hr hn hmp]
  simp

theorem idealBal_nonneg {m : Mortgage} (hP : 0 < m.principal)
    (hr : 0 < m.monthly_rate) (hn : 1 ≤ m.total_periods)
    (hmp : m.monthly_payment =
      annuityPayment m.principal m.monthly_rate m.total_periods)
    {k : ℕ} (hk : k ≤ m.total_periods) :
    0 ≤ idealBal m k := by
  rw [idealBal_closed hr hn hmp]
  have hQ : (1:ℚ) < (1 + m.monthly_rate) ^ m.total_periods :=
    one_lt_pow_one_add hr (by omega)
  have hq : (1 + m.monthly_rate) ^ k ≤ (1 + m.monthly_rate) ^ m.total_periods := by
    rcases Nat.lt_or_ge k m.total_periods with h | h
    · exact le_of_lt (pow_one_add_lt hr h)
    · have : k = m.total_periods := le_antisymm hk h
      rw [this]
  have hden : (0:ℚ) < (1 + m.monthly_rate) ^ m.total_periods - 1 := by linarith
  apply div_nonneg _ (le_of_lt hden)
  have : (0:ℚ) ≤ (1 + m.monthly_rate) ^ m.total_periods - (1 + m.monthly_rate) ^ k := by
    linarith
  exact mul_nonneg (le_of_lt hP) this

theorem idealBal_pos {m : Mortgage} (hP : 0 < m.principal)
    (hr : 0 < m.monthly_rate) (hn : 1 ≤ m.total_periods)
    (hmp : m.monthly_payment =
      annuityPayment m.principal m.monthly_rate m.total_periods)
    {k : ℕ} (hk : k < m.total_periods) :
    0 < idealBal m k := by
  rw [idealBal_closed hr hn hmp]
  have hQ : (1:ℚ) < (1 + m.monthly_rate) ^ m.total_periods :=
    one_lt_pow_one_add hr (by omega)
  have hq : (1 + m.monthly_rate) ^ k < (1 + m.monthly_rate) ^ m.total_periods :=
    pow_one_add_lt hr hk
  have hden : (0:ℚ) < (1 + m.monthly_rate) ^ m.total_periods - 1 := by linarith
  apply div_pos _ hden
  apply mul_pos hP
  linarith

theorem idealBal_le_principal {m : Mortgage} (hP : 0 < m.principal)
    (hr : 0 < m.monthly_rate) (hn : 1 ≤ m.total_periods)
    (hmp : m.monthly_payment =
      annuityPayment m.principal m.monthly_rate m.total_periods)
    {k : ℕ} (hk : k ≤ m.total_periods) :
    idealBal m k ≤ m.principal := by
  rw [idealBal_closed hr hn hmp]
  have hQ : (1:ℚ) < (1 + m.monthly_rate) ^ m.total_periods :=
    one_lt_pow_one_add hr (by omega)
  have hden : (0:ℚ) < (1 + m.monthly_rate) ^ m.total_periods - 1 := by linarith
  rw [div_le_iff₀ hden]
  have hq : (1:ℚ) ≤ (1 + m.monthly_rate) ^ k := one_le_pow₀ (by linarith)
  nlinarith

theorem principal_rate_lt_payment {m : Mortgage} (hP : 0 < m.principal)
    (hr : 0 < m.monthly_rate) (hn : 1 ≤ m.total_periods)
    (hmp : m.monthly_payment =
      annuityPayment m.principal m.monthly_rate m.total_periods) :
    m.principal * m.monthly_rate < m.monthly_payment := by
  rw [hmp, annuityPayment]
  have hQ : (1:ℚ) < (1 + m.monthly_rate) ^ m.total_periods :=
    one_lt_pow_one_add hr (by omega)
  have hden : (0:ℚ) < (1 + m.monthly_rate) ^ m.total_periods - 1 := by linarith
  rw [lt_div_iff₀ hden]
  nlinarith

/-! ### One loop step versus the no-extra balance sequence -/

theorem nextBalance_le_ideal {m : Mortgage} {re : ℚ} {ls : List (ℕ × ℚ)}
    (hP : 0 < m.principal) (hr : 0 < m.monthly_rate) (hn : 1 ≤ m.total_periods)
    (hmp : m.monthly_payment =
      annuityPayment m.principal m.monthly_rate m.total_periods)
    {p j : ℕ} {b : ℚ} (he : 0 ≤ entry_extra re ls p)
    (hj : j + 1 ≤ m.total_periods) (hb : b ≤ idealBal m j) :
    nextBalance m re ls p b ≤ idealBal m (j + 1) := by
  by_cases h : m.monthly_payment - b * m.monthly_rate + entry_extra re ls p > b
  · rw [nextBalance_eq_cap h]
    exact idealBal_nonneg hP hr hn hmp hj
  · rw [nextBalance_eq_nocap h]
    have hmul : b * (1 + m.monthly_rate) ≤ idealBal m j * (1 + m.monthly_rate) :=
      mul_le_mul_of_nonneg_right hb (by linarith)
    have hideal : idealBal m (j + 1) = idealBal m j * (1 + m.monthly_rate) - m.monthly_payment :=
      rfl
    rw [hideal]
    nlinarith [he]

theorem nextBalance_pos_eq {m : Mortgage} {re : ℚ} {ls : List (ℕ × ℚ)} {p : ℕ} {b : ℚ}
    (h : 0 < nextBalance m re ls p b) :
    nextBalance m re ls p b =
      b * (1 + m.monthly_rate) - m.monthly_payment - entry_extra re ls p := by
  by_cases hc : m.monthly_payment - b * m.monthly_rate + entry_extra re ls p > b
  · rw [nextBalance_eq_cap hc] at h
    exact absurd h (lt_irrefl 0)
  · rw [nextBalance_eq_nocap hc]
    ring

theorem nextBalance_le_self {m : Mortgage} {re : ℚ} {ls : List (ℕ × ℚ)} {p : ℕ} {b : ℚ}
    (hb : 0 ≤ b) (hbr : b * m.monthly_rate ≤ m.monthly_payment)
    (he : 0 ≤ entry_extra re ls p) :
    nextBalance m re ls p b ≤ b := by
  by_cases h : m.monthly_payment - b * m.monthly_rate + entry_extra re ls p > b
  · rw [nextBalance_eq_cap h]
    exact hb
  · rw [nextBalance_eq_nocap h]
    linarith

theorem nextBalance_baseline {m : Mortgage}
    (hP : 0 < m.principal) (hr : 0 < m.monthly_rate) (hn : 1 ≤ m.total_periods)
    (hmp : m.monthly_payment =
      annuityPayment m.principal m.monthly_rate m.total_periods)
    {p j : ℕ} (hj : j + 1 ≤ m.total_periods) :
    nextBalance m 0 [] p (idealBal m j) = idealBal m (j + 1) := by
  have hnext : idealBal m (j + 1) = idealBal m j * (1 + m.monthly_rate) - m.monthly_payment :=
    rfl
  have hpos : 0 ≤ idealBal m (j + 1) := idealBal_nonneg hP hr hn hmp hj
  have hnc : ¬ m.monthly_payment - idealBal m j * m.monthly_rate + entry_extra 0 [] p >
      idealBal m j := by
    rw [entry_extra_nil]
    rw [hnext] at hpos
    push_neg
    linarith
  rw [nextBalance_eq_nocap hnc, entry_extra_nil, hnext]
  ring

/-! ### The balance chain invariant -/

/-- Running the loop from period `j + 1` with a balance between `0` and
the no-extra balance `idealBal m j`, the stored balances are
non-increasing and the last stored balance is exactly `0`. -/
theorem schedAux_chain {m : Mortgage} {re : ℚ} {ls : List (ℕ × ℚ)}
    (hP : 0 < m.principal) (hr : 0 < m.monthly_rate) (hn : 1 ≤ m.total_periods)
    (hmp : m.monthly_payment =
      annuityPayment m.principal m.monthly_rate m.total_periods)
    (hext : ∀ q, 0 ≤ entry_extra re ls q) :
    ∀ fuel j b, fuel + j = m.total_periods → 0 ≤ b → b ≤ idealBal m j →
      (∀ i e es, (schedAux m re ls fuel (j + 1) b).get? i = some e →
          (schedAux m re ls fuel (j + 1) b).get? (i + 1) = some es →
          es.balance ≤ e.balance) ∧
      (∀ e, (schedAux m re ls fuel (j + 1) b).getLast? = some e → e.balance = 0) := by
  intro fuel
  induction fuel with
  | zero =>
    intro j b _ _ _
    constructor
    · intro i e es he _
      simp [schedAux_zero] at he
    · intro e he
      simp [schedAux_zero] at he
  | succ fuel ih =>
    intro j b hfj hb0 hble
    have hj1 : j + 1 ≤ m.total_periods := by omega
    have hbideal : nextBalance m re ls (j + 1) b ≤ idealBal m (j + 1) :=
      nextBalance_le_ideal hP hr hn hmp (hext _) hj1 hble
    by_cases hb : nextBalance m re ls (j + 1) b ≤ 0
    · rw [schedAux_succ, if_pos hb]
      have h0 : nextBalance m re ls (j + 1) b = 0 :=
        le_antisymm hb (nextBalance_nonneg m re ls (j + 1) b)
      constructor
      · intro i e es he hes
        cases i with
        | zero => simp at hes
        | succ i => simp at he
      · intro e he
        simp only [List.getLast?_singleton, Option.some_inj] at he
        rw [← he, mkEntry_balance, h0]
        simp
    · rw [schedAux_succ, if_neg hb]
      have hbpos : 0 < nextBalance m re ls (j + 1) b := lt_of_not_le hb
      have hfuel : fuel ≠ 0 := by
        intro hf0
        have hjn : j + 1 = m.total_periods := by omega
        have hzero : idealBal m (j + 1) = 0 := by
          rw [hjn]
          exact idealBal_last hr hn hmp
        linarith
      obtain ⟨fuel', rfl⟩ : ∃ f, fuel = f + 1 := ⟨fuel - 1, by omega⟩
      rcases ih (j + 1) (nextBalance m re ls (j + 1) b) (by omega)
          (le_of_lt hbpos) hbideal with ⟨ihc, ihl⟩
      constructor
      · intro i e es he hes
        cases i with
        | zero =>
          rw [List.get?_cons_zero] at he
          cases he
          rw [List.get?_cons_succ] at hes
          rw [schedAux_get_zero] at hes
          cases hes
          rw [mkEntry_balance, mkEntry_balance,
            max_eq_left (le_of_lt hbpos)]
          apply max_le _ (le_of_lt hbpos)
          apply nextBalance_le_self (le_of_lt hbpos) _ (hext _)
          have h1 : nextBalance m re ls (j + 1) b ≤ m.principal :=
            le_trans hbideal (idealBal_le_principal hP hr hn hmp hj1)
          have h2 := principal_rate_lt_payment hP hr hn hmp
          nlinarith
        | succ i =>
          rw [List.get?_cons_succ] at he hes
          exact ihc i e es he hes
      · intro e he
        rw [getLast?_cons_of_ne_nil _
          (schedAux_ne_nil m re ls fuel' (j + 1 + 1) (nextBalance m re ls (j + 1) b))] at he
        exact ihl e he

/-- C5 (confirmed): under the construction preconditions (positive
principal, positive periodic rate, at least one period, annuity payment)
and non-negative extra inputs, the generated schedule is non-empty, its
`balance` field is non-increasing across consecutive entries, every
non-final entry has a strictly positive balance, and the final entry's
balance is exactly `0`. -/
theorem balance_monotone_and_final_zero (m : Mortgage) (re : ℚ) (ls : List (ℕ × ℚ))
    (hP : 0 < m.principal) (hr : 0 < m.monthly_rate) (hn : 1 ≤ m.total_periods)
    (hmp : m.monthly_payment =
      annuityPayment m.principal m.monthly_rate m.total_periods)
    (hre : 0 ≤ re) (hls : ∀ kv ∈ ls, 0 ≤ kv.2) :
    amortization_schedule m re ls ≠ [] ∧
    (∀ i e es, (amortization_schedule m re ls).get? i = some e →
        (amortization_schedule m re ls).get? (i + 1) = some es →
        es.balance ≤ e.balance ∧ 0 < e.balance) ∧
    (∀ e, (amortization_schedule m re ls).getLast? = some e → e.balance = 0) := by
  have hext : ∀ q, 0 ≤ entry_extra re ls q := entry_extra_nonneg hre hls
  have hchain := schedAux_chain hP hr hn hmp hext m.total_periods 0 m.principal
    (by omega) (le_of_lt hP) (le_of_eq rfl)
  refine ⟨?_, ?_, ?_⟩
  · obtain ⟨k, hk⟩ : ∃ k, m.total_periods = k + 1 := ⟨m.total_periods - 1, by omega⟩
    rw [amortization_schedule, hk]
    exact schedAux_ne_nil m re ls k 1 m.principal
  · intro i e es he hes
    refine ⟨hchain.1 i e es he hes, ?_⟩
    exact schedAux_nonfinal_pos m re ls m.total_periods 1 m.principal i e es he hes
  · exact hchain.2

/-- Witness for C5 at the concrete two-period loan with a period-1 lump
sum of `30`. -/
theorem balance_monotone_and_final_zero_witness :
    amortization_schedule mortgageTwo 0 [(1, 30)] ≠ [] ∧
    (∀ i e es, (amortization_schedule mortgageTwo 0 [(1, 30)]).get? i = some e →
        (amortization_schedule mortgageTwo 0 [(1, 30)]).get? (i + 1) = some es →
        es.balance ≤ e.balance ∧ 0 < e.balance) ∧
    (∀ e, (amortization_schedule mortgageTwo 0 [(1, 30)]).getLast? = some e →
        e.balance = 0) := by
  apply balance_monotone_and_final_zero mortgageTwo 0 [(1, 30)]
  · norm_num [mortgageTwo]
  · norm_num [mortgageTwo]
  · norm_num [mortgageTwo]
  · norm_num [mortgageTwo, annuityPayment]
  · norm_num
  · intro kv hkv
    simp only [List.mem_singleton] at hkv
    rw [hkv]
    norm_num

/-! ### The no-extra baseline run -/

theorem schedAux_baseline_last {m : Mortgage}
    (hP : 0 < m.principal) (hr : 0 < m.monthly_rate) (hn : 1 ≤ m.total_periods)
    (hmp : m.monthly_payment =
      annuityPayment m.principal m.monthly_rate m.total_periods) :
    ∀ fuel j, fuel + j = m.total_periods → j < m.total_periods →
      ∃ e, (schedAux m 0 [] fuel (j + 1) (idealBal m j)).getLast? = some e ∧
        e.period = m.total_periods := by
  intro fuel
  induction fuel with
  | zero => intro j hfj hjn; omega
  | succ fuel ih =>
    intro j hfj hjn
    have hj1 : j + 1 ≤ m.total_periods := by omega
    have hnext : nextBalance m 0 [] (j + 1) (idealBal m j) = idealBal m (j + 1) :=
      nextBalance_baseline hP hr hn hmp hj1
    by_cases hstop : j + 1 = m.total_periods
    · have hb : nextBalance m 0 [] (j + 1) (idealBal m j) ≤ 0 := by
        rw [hnext]
        have : idealBal m (j + 1) = 0 := by
          rw [hstop]
          exact idealBal_last hr hn hmp
        linarith
      rw [schedAux_succ, if_pos hb]
      refine ⟨mkEntry m 0 [] (j + 1) (idealBal m j), ?_, ?_⟩
      · simp
      · rw [mkEntry_period, hstop]
    · have hlt : j + 1 < m.total_periods := by omega
      have hbpos : 0 < nextBalance m 0 [] (j + 1) (idealBal m j) := by
        rw [hnext]
        exact idealBal_pos hP hr hn hmp hlt
      rw [schedAux_succ, if_neg (not_le.2 hbpos)]
      obtain ⟨fuel', rfl⟩ : ∃ f, fuel = f + 1 := ⟨fuel - 1, by omega⟩
      rcases ih (j + 1) (by omega) hlt with ⟨e, he, hper⟩
      rw [hnext]
      refine ⟨e, ?_, hper⟩
      rw [getLast?_cons_of_ne_nil _
        (schedAux_ne_nil m 0 [] fuel' (j + 1 + 1) (idealBal m (j + 1)))]
      exact he

/-- C6 (confirmed): with zero recurring extra and no lump sums, under the
construction preconditions, the schedule's summary exists and its
`periods_used` equals exactly `total_periods`. -/
theorem no_extra_periods_used (m : Mortgage)
    (hP : 0 < m.principal) (hr : 0 < m.monthly_rate) (hn : 1 ≤ m.total_periods)
    (hmp : m.monthly_payment =
      annuityPayment m.principal m.monthly_rate m.total_periods) :
    ∃ s, summarize_schedule (amortization_schedule m 0 []) = some s ∧
      s.periods_used = m.total_periods := by
  rcases schedAux_baseline_last hP hr hn hmp m.total_periods 0 (by omega) (by omega)
    with ⟨e, he, hper⟩
  have he' : (amortization_schedule m 0 []).getLast? = some e := by
    rw [amortization_schedule]
    exact he
  exact ⟨_, summarize_schedule_eq_some he', hper⟩

/-- Witness for C6 at the concrete two-period loan. -/
theorem no_extra_periods_used_witness :
    ∃ s, summarize_schedule (amortization_schedule mortgageTwo 0 []) = some s ∧
      s.periods_used = mortgageTwo.total_periods := by
  apply no_extra_periods_used mortgageTwo
  · norm_num [mortgageTwo]
  · norm_num [mortgageTwo]
  · norm_num [mortgageTwo]
  · norm_num [mortgageTwo, annuityPayment]

/-! ### Interest comparison -/

theorem ico_sum_ideal_nonneg {m : Mortgage}
    (hP : 0 < m.principal) (hr : 0 < m.monthly_rate) (hn : 1 ≤ m.total_periods)
    (hmp : m.monthly_payment =
      annuityPayment m.principal m.monthly_rate m.total_periods) (j : ℕ) :
    0 ≤ ∑ i in Finset.Ico j m.total_periods, idealBal m i := by
  apply Finset.sum_nonneg
  intro i hi
  exact idealBal_nonneg hP hr hn hmp (le_of_lt (Finset.mem_Ico.1 hi).2)

theorem ico_sum_ideal_pos {m : Mortgage}
    (hP : 0 < m.principal) (hr : 0 < m.monthly_rate) (hn : 1 ≤ m.total_periods)
    (hmp : m.monthly_payment =
      annuityPayment m.principal m.monthly_rate m.total_periods)
    {j : ℕ} (hj : j < m.total_periods) :
    0 < ∑ i in Finset.Ico j m.total_periods, idealBal m i := by
  apply Finset.sum_pos
  · intro i hi
    exact idealBal_pos hP hr hn hmp (Finset.mem_Ico.1 hi).2
  · exact Finset.nonempty_Ico.2 hj

/-- Interest collected by a run started below the no-extra balance is at
most the rate times the remaining no-extra balances. -/
theorem schedAux_interest_le {m : Mortgage} {re : ℚ} {ls : List (ℕ × ℚ)}
    (hP : 0 < m.principal) (hr : 0 < m.monthly_rate) (hn : 1 ≤ m.total_periods)
    (hmp : m.monthly_payment =
      annuityPayment m.principal m.monthly_rate m.total_periods)
    (hext : ∀ q, 0 ≤ entry_extra re ls q) :
    ∀ fuel j b, fuel + j = m.total_periods → 0 ≤ b → b ≤ idealBal m j →
      ((schedAux m re ls fuel (j + 1) b).map Entry.interest).sum ≤
        m.monthly_rate * ∑ i in Finset.Ico j m.total_periods, idealBal m i := by
  intro fuel
  induction fuel with
  | zero =>
    intro j b hfj hb0 hble
    have hj : j = m.total_periods := by omega
    subst hj
    simp [schedAux_zero]
  | succ fuel ih =>
    intro j b hfj hb0 hble
    have hjlt : j < m.total_periods := by omega
    have hsplit : ∑ i in Finset.Ico j m.total_periods, idealBal m i =
        idealBal m j + ∑ i in Finset.Ico (j + 1) m.total_periods, idealBal m i :=
      Finset.sum_eq_sum_Ico_succ_bot hjlt _
    have hfirst : b * m.monthly_rate ≤ m.monthly_rate * idealBal m j := by
      rw [mul_comm]
      exact mul_le_mul_of_nonneg_left hble (le_of_lt hr)
    have htail : 0 ≤ m.monthly_rate * ∑ i in Finset.Ico (j + 1) m.total_periods, idealBal m i :=
      mul_nonneg (le_of_lt hr) (ico_sum_ideal_nonneg hP hr hn hmp (j + 1))
    by_cases hb : nextBalance m re ls (j + 1) b ≤ 0
    · rw [schedAux_succ, if_pos hb]
      simp only [List.map_cons, List.map_nil, List.sum_cons, List.sum_nil, add_zero,
        mkEntry_interest]
      rw [hsplit, mul_add]
      linarith
    · rw [schedAux_succ, if_neg hb]
      simp only [List.map_cons, List.sum_cons, mkEntry_interest]
      have hrest := ih (j + 1) (nextBalance m re ls (j + 1) b) (by omega)
        (nextBalance_nonneg m re ls (j + 1) b)
        (nextBalance_le_ideal hP hr hn hmp (hext _) (by omega) hble)
      rw [hsplit, mul_add]
      linarith

/-- Strict version of `schedAux_interest_le` for a run started strictly
below the no-extra balance. -/
theorem schedAux_interest_lt {m : Mortgage} {re : ℚ} {ls : List (ℕ × ℚ)}
    (hP : 0 < m.principal) (hr : 0 < m.monthly_rate) (hn : 1 ≤ m.total_periods)
    (hmp : m.monthly_payment =
      annuityPayment m.principal m.monthly_rate m.total_periods)
    (hext : ∀ q, 0 ≤ entry_extra re ls q) :
    ∀ fuel j b, fuel + j = m.total_periods → 0 ≤ b → b < idealBal m j →
      j < m.total_periods →
      ((schedAux m re ls fuel (j + 1) b).map Entry.interest).sum <
        m.monthly_rate * ∑ i in Finset.Ico j m.total_periods, idealBal m i := by
  intro fuel
  induction fuel with
  | zero => intro j b hfj _ _ hjlt; omega
  | succ fuel ih =>
    intro j b hfj hb0 hblt hjlt
    have hsplit : ∑ i in Finset.Ico j m.total_periods, idealBal m i =
        idealBal m j + ∑ i in Finset.Ico (j + 1) m.total_periods, idealBal m i :=
      Finset.sum_eq_sum_Ico_succ_bot hjlt _
    have hfirst : b * m.monthly_rate < m.monthly_rate * idealBal m j := by
      rw [mul_comm]
      exact mul_lt_mul_of_pos_left hblt hr
    have htail : 0 ≤ m.monthly_rate * ∑ i in Finset.Ico (j + 1) m.total_periods, idealBal m i :=
      mul_nonneg (le_of_lt hr) (ico_sum_ideal_nonneg hP hr hn hmp (j + 1))
    by_cases hb : nextBalance m re ls (j + 1) b ≤ 0
    · rw [schedAux_succ, if_pos hb]
      simp only [List.map_cons, List.map_nil, List.sum_cons, List.sum_nil, add_zero,
        mkEntry_interest]
      rw [hsplit, mul_add]
      linarith
    · rw [schedAux_succ, if_neg hb]
      simp only [List.map_cons, List.sum_cons, mkEntry_interest]
      have hrest := schedAux_interest_le hP hr hn hmp hext fuel (j + 1)
        (nextBalance m re ls (j + 1) b) (by omega)
        (nextBalance_nonneg m re ls (j + 1) b)
        (nextBalance_le_ideal hP hr hn hmp (hext _) (by omega) (le_of_lt hblt))
      rw [hsplit, mul_add]
      linarith

/-- If some period strictly before `total_periods` and not before the
current period carries a positive extra, the collected interest is
strictly below the rate times the remaining no-extra balances. -/
theorem schedAux_interest_lt_of_extra {m : Mortgage} {re : ℚ} {ls : List (ℕ × ℚ)}
    (hP : 0 < m.principal) (hr : 0 < m.monthly_rate) (hn : 1 ≤ m.total_periods)
    (hmp : m.monthly_payment =
      annuityPayment m.principal m.monthly_rate m.total_periods)
    (hext : ∀ q, 0 ≤ entry_extra re ls q) :
    ∀ fuel j b, fuel + j = m.total_periods → 0 ≤ b → b ≤ idealBal m j →
      (∃ q, j + 1 ≤ q ∧ q < m.total_periods ∧ 0 < entry_extra re ls q) →
      ((schedAux m re ls fuel (j + 1) b).map Entry.interest).sum <
        m.monthly_rate * ∑ i in Finset.Ico j m.total_periods, idealBal m i := by
  intro fuel
  induction fuel with
  | zero =>
    intro j b hfj _ _ hq
    rcases hq with ⟨q, hq1, hq2, _⟩
    omega
  | succ fuel ih =>
    intro j b hfj hb0 hble hq
    rcases hq with ⟨q, hq1, hq2, hq3⟩
    have hjlt : j < m.total_periods := by omega
    rcases lt_or_eq_of_le hble with hblt | hbeq
    · exact schedAux_interest_lt hP hr hn hmp hext (fuel + 1) j b hfj hb0 hblt hjlt
    · have hsplit : ∑ i in Finset.Ico j m.total_periods, idealBal m i =
          idealBal m j + ∑ i in Finset.Ico (j + 1) m.total_periods, idealBal m i :=
        Finset.sum_eq_sum_Ico_succ_bot hjlt _
      have hj1lt : j + 1 < m.total_periods := by omega
      by_cases hb : nextBalance m re ls (j + 1) b ≤ 0
      · rw [schedAux_succ, if_pos hb]
        simp only [List.map_cons, List.map_nil, List.sum_cons, List.sum_nil, add_zero,
          mkEntry_interest]
        have htailpos : 0 < m.monthly_rate *
            ∑ i in Finset.Ico (j + 1) m.total_periods, idealBal m i :=
          mul_pos hr (ico_sum_ideal_pos hP hr hn hmp hj1lt)
        have hfirst : b * m.monthly_rate ≤ m.monthly_rate * idealBal m j := by
          rw [mul_comm]
          exact mul_le_mul_of_nonneg_left hble (le_of_lt hr)
        rw [hsplit, mul_add]
        linarith
      · rw [schedAux_succ, if_neg hb]
        simp only [List.map_cons, List.sum_cons, mkEntry_interest]
        have hbpos : 0 < nextBalance m re ls (j + 1) b := lt_of_not_le hb
        have hfirst : b * m.monthly_rate ≤ m.monthly_rate * idealBal m j := by
          rw [mul_comm]
          exact mul_le_mul_of_nonneg_left hble (le_of_lt hr)
        have hrest : ((schedAux m re ls fuel (j + 1 + 1)
            (nextBalance m re ls (j + 1) b)).map Entry.interest).sum <
            m.monthly_rate * ∑ i in Finset.Ico (j + 1) m.total_periods, idealBal m i := by
          by_cases hqj : q = j + 1
          · have hbstrict : nextBalance m re ls (j + 1) b < idealBal m (j + 1) := by
              rw [nextBalance_pos_eq hbpos]
              have hstep : idealBal m (j + 1) =
                  idealBal m j * (1 + m.monthly_rate) - m.monthly_payment := rfl
              rw [hstep, hbeq]
              subst hqj
              linarith
            exact schedAux_interest_lt hP hr hn hmp hext fuel (j + 1)
              (nextBalance m re ls (j + 1) b) (by omega)
              (nextBalance_nonneg m re ls (j + 1) b) hbstrict hj1lt
          · exact ih (j + 1) (nextBalance m re ls (j + 1) b) (by omega)
              (nextBalance_nonneg m re ls (j + 1) b)
              (nextBalance_le_ideal hP hr hn hmp (hext _) (by omega) hble)
              ⟨q, by omega, hq2, hq3⟩
        rw [hsplit, mul_add]
        linarith

/-- The no-extra baseline collects exactly the rate times the sum of the
no-extra balances. -/
theorem schedAux_interest_baseline {m : Mortgage}
    (hP : 0 < m.principal) (hr : 0 < m.monthly_rate) (hn : 1 ≤ m.total_periods)
    (hmp : m.monthly_payment =
      annuityPayment m.principal m.monthly_rate m.total_periods) :
    ∀ fuel j, fuel + j = m.total_periods →
      ((schedAux m 0 [] fuel (j + 1) (idealBal m j)).map Entry.interest).sum =
        m.monthly_rate * ∑ i in Finset.Ico j m.total_periods, idealBal m i := by
  intro fuel
  induction fuel with
  | zero =>
    intro j hfj
    have hj : j = m.total_periods := by omega
    subst hj
    simp [schedAux_zero]
  | succ fuel ih =>
    intro j hfj
    have hjlt : j < m.total_periods := by omega
    have hsplit : ∑ i in Finset.Ico j m.total_periods, idealBal m i =
        idealBal m j + ∑ i in Finset.Ico (j + 1) m.total_periods, idealBal m i :=
      Finset.sum_eq_sum_Ico_succ_bot hjlt _
    have hnext : nextBalance m 0 [] (j + 1) (idealBal m j) = idealBal m (j + 1) :=
      nextBalance_baseline hP hr hn hmp (by omega)
    by_cases hb : nextBalance m 0 [] (j + 1) (idealBal m j) ≤ 0
    · rw [schedAux_succ, if_pos hb]
      simp only [List.map_cons, List.map_nil, List.sum_cons, List.sum_nil, add_zero,
        mkEntry_interest]
      have hj1 : j + 1 = m.total_periods := by
        by_contra hne
        have : 0 < idealBal m (j + 1) := idealBal_pos hP hr hn hmp (by omega)
        rw [hnext] at hb
        linarith
      have hempty : ∑ i in Finset.Ico (j + 1) m.total_periods, idealBal m i = 0 := by
        rw [hj1]
        simp
      rw [hsplit, hempty, add_zero, mul_comm]
    · rw [schedAux_succ, if_neg hb]
      simp only [List.map_cons, List.sum_cons, mkEntry_interest]
      rw [hnext]
      rw [ih (j + 1) (by omega)]
      rw [hsplit, mul_add, mul_comm (idealBal m j) m.monthly_rate]

theorem mem_of_getLast?_eq_some {α : Type} {l : List α} {a : α}
    (h : l.getLast? = some a) : a ∈ l := by
  cases l with
  | nil => simp at h
  | cons b t =>
    rw [List.getLast?_eq_getLast _ (by simp), Option.some_inj] at h
    rw [← h]
    exact List.getLast_mem _

/-- C8 (amended): under the construction preconditions and non-negative
extra inputs, if some period strictly before `total_periods` carries a
positive extra, then the schedule's `periods_used` is at most
`total_periods` and its `total_interest` is strictly smaller than the
zero-extra `total_interest`.  (The original claim, which only required a
positive extra in some generated period, fails when the only positive
extra falls on period `total_periods`: see the counterexample.) -/
theorem extra_payment_accelerates (m : Mortgage) (re : ℚ) (ls : List (ℕ × ℚ))
    (hP : 0 < m.principal) (hr : 0 < m.monthly_rate) (hn : 1 ≤ m.total_periods)
    (hmp : m.monthly_payment =
      annuityPayment m.principal m.monthly_rate m.total_periods)
    (hre : 0 ≤ re) (hls : ∀ kv ∈ ls, 0 ≤ kv.2)
    (hpos : ∃ p, 1 ≤ p ∧ p < m.total_periods ∧ 0 < entry_extra re ls p) :
    ∃ se sb, summarize_schedule (amortization_schedule m re ls) = some se ∧
      summarize_schedule (amortization_schedule m 0 []) = some sb ∧
      se.periods_used ≤ m.total_periods ∧
      se.total_interest < sb.total_interest := by
  have hext : ∀ q, 0 ≤ entry_extra re ls q := entry_extra_nonneg hre hls
  obtain ⟨k, hk⟩ : ∃ k, m.total_periods = k + 1 := ⟨m.total_periods - 1, by omega⟩
  have hne1 : amortization_schedule m re ls ≠ [] := by
    rw [amortization_schedule, hk]
    exact schedAux_ne_nil m re ls k 1 m.principal
  have hne0 : amortization_schedule m 0 [] ≠ [] := by
    rw [amortization_schedule, hk]
    exact schedAux_ne_nil m 0 [] k 1 m.principal
  rcases getLast?_isSome_of_ne_nil hne1 with ⟨e1, he1⟩
  rcases getLast?_isSome_of_ne_nil hne0 with ⟨e0, he0⟩
  refine ⟨_, _, summarize_schedule_eq_some he1, summarize_schedule_eq_some he0, ?_, ?_⟩
  · have hmem : e1 ∈ amortization_schedule m re ls := mem_of_getLast?_eq_some he1
    have := (schedAux_mem_period m re ls m.total_periods 1 m.principal e1 hmem).2
    simp only
    omega
  · simp only
    have hstrict := schedAux_interest_lt_of_extra hP hr hn hmp hext
      m.total_periods 0 m.principal (by omega) (le_of_lt hP) (le_refl _) hpos
    have hbase := schedAux_interest_baseline hP hr hn hmp m.total_periods 0 (by omega)
    rw [amortization_schedule, amortization_schedule]
    calc ((schedAux m re ls m.total_periods 1 m.principal).map Entry.interest).sum <
        m.monthly_rate * ∑ i in Finset.Ico 0 m.total_periods, idealBal m i := hstrict
      _ = ((schedAux m 0 [] m.total_periods 1 m.principal).map Entry.interest).sum :=
        hbase.symm

/-- Witness for the amended C8 at the concrete two-period loan with a
period-1 lump sum of `5`. -/
theorem extra_payment_accelerates_witness :
    ∃ se sb, summarize_schedule (amortization_schedule mortgageTwo 0 [(1, 5)]) = some se ∧
      summarize_schedule (amortization_schedule mortgageTwo 0 []) = some sb ∧
      se.periods_used ≤ mortgageTwo.total_periods ∧
      se.total_interest < sb.total_interest := by
  apply extra_payment_accelerates mortgageTwo 0 [(1, 5)]
  · norm_num [mortgageTwo]
  · norm_num [mortgageTwo]
  · norm_num [mortgageTwo]
  · norm_num [mortgageTwo, annuityPayment]
  · norm_num
  · intro kv hkv
    simp only [List.mem_singleton] at hkv
    rw [hkv]
    norm_num
  · refine ⟨1, le_refl 1, ?_, ?_⟩
    · norm_num [mortgageTwo]
    · norm_num [entry_extra, dictGet]

/-- Counterexample to C8 as stated: for the one-period loan with a
positive recurring extra of `5` (a positive extra in the single generated
period), the early-payoff rule zeroes the extra and the total interest is
unchanged (`10` in both schedules), not strictly smaller. -/
theorem extra_payment_no_decrease_counterexample :
    (0:ℚ) < 5 ∧
    0 < mortgageOne.monthly_rate ∧
    mortgageOne.monthly_payment =
      annuityPayment mortgageOne.principal mortgageOne.monthly_rate
        mortgageOne.total_periods ∧
    summarize_schedule (amortization_schedule mortgageOne 5 []) =
      some { total_paid := 110, total_interest := 10, periods_used := 1 } ∧
    summarize_schedule (amortization_schedule mortgageOne 0 []) =
      some { total_paid := 110, total_interest := 10, periods_used := 1 } ∧
    ¬ ((10:ℚ) < 10) := by
  refine ⟨by norm_num, by norm_num [mortgageOne], ?_, ?_, ?_, by norm_num⟩
  · norm_num [mortgageOne, annuityPayment]
  · norm_num [summarize_schedule, amortization_schedule, schedAux, mkEntry, nextBalance,
      entry_extra, dictGet, mortgageOne, List.getLast?]
  · norm_num [summarize_schedule, amortization_schedule, schedAux, mkEntry, nextBalance,
      entry_extra, dictGet, mortgageOne, List.getLast?]

/-- C4 (confirmed): every entry of every generated schedule satisfies
`payment = interest + principal + extra`; in particular an entry whose
`extra` was zeroed (as in the capped final entry, where `principal` is the
remaining balance) satisfies `payment = principal + interest`. -/
theorem payment_decomposition (m : Mortgage) (re : ℚ) (ls : List (ℕ × ℚ))
    (hre : 0 ≤ re) (hls : ∀ kv ∈ ls, 0 ≤ kv.2) :
    (∀ e ∈ amortization_schedule m re ls,
      e.payment = e.interest + e.principal + e.extra) ∧
    (∀ e ∈ amortization_schedule m re ls,
      e.extra = 0 → e.payment = e.principal + e.interest) := by
  constructor
  · intro e he
    exact schedAux_mem_payment m re ls m.total_periods 1 m.principal e he
  · intro e he h0
    have h := schedAux_mem_payment m re ls m.total_periods 1 m.principal e he
    rw [h0, add_zero] at h
    linarith

/-- Witness for C4 at the concrete two-period loan with a period-2 lump
sum of `7`. -/
theorem payment_decomposition_witness :
    (∀ e ∈ amortization_schedule mortgageTwo 0 [(2, 7)],
      e.payment = e.interest + e.principal + e.extra) ∧
    (∀ e ∈ amortization_schedule mortgageTwo 0 [(2, 7)],
      e.extra = 0 → e.payment = e.principal + e.interest) := by
  apply payment_decomposition mortgageTwo 0 [(2, 7)]
  · norm_num
  · intro kv hkv
    simp only [List.mem_singleton] at hkv
    rw [hkv]
    norm_num

/-- Counterexample to C1 as stated: on the two-period loan, a period-1
lump sum of `1100/21` makes the nominal
`principal_component + extra = 1000/21 + 1100/21 = 100` equal to the
starting balance `100` (so the claim's `≥ balance` premise holds), yet the
generated entry keeps `extra = 1100/21 ≠ 0` and its `principal` is
`1000/21`, not the remaining balance `100`: the source caps only on the
strict inequality. -/
theorem early_payoff_boundary_counterexample :
    (amortization_schedule mortgageTwo 0 [(1, 1100/21)]).head? =
      some { period := 1, payment := 110, interest := 10, principal := 1000/21,
             extra := 1100/21, balance := 0 } ∧
    mortgageTwo.monthly_payment - 100 * mortgageTwo.monthly_rate +
       entry_extra 0 [(1, 1100/21)] 1 = 100 ∧
    ¬ ((1100/21 : ℚ) = 0) ∧
    ¬ ((1000/21 : ℚ) = 100) := by
  refine ⟨?_, ?_, by norm_num, by norm_num⟩
  · norm_num [amortization_schedule, schedAux, mkEntry, nextBalance, entry_extra,
      dictGet, mortgageTwo]
  · norm_num [entry_extra, dictGet, mortgageTwo]

/-- C1 (amended): an entry of the schedule is capped — `principal` set to
the balance at the start of its period (reconstructed as `preBal`),
`extra` zeroed, `payment = balance + interest`, final entry — exactly when
the nominal `principal_component + extra` strictly exceeds that balance.
In the boundary case of equality the period is still the final one and the
payment coincides numerically with `balance + interest`, but `extra` and
`principal` keep their nominal values; below the balance the entry is the
ordinary one with `payment = periodic_payment + extra`. -/
theorem early_payoff_rule (m : Mortgage) (re : ℚ) (ls : List (ℕ × ℚ))
    (j : ℕ) (e : Entry) (he : (amortization_schedule m re ls).get? j = some e) :
    (m.monthly_payment - preBal e * m.monthly_rate + entry_extra re ls e.period > preBal e →
      e.principal = preBal e ∧ e.extra = 0 ∧
      e.payment = preBal e + preBal e * m.monthly_rate ∧
      j + 1 = (amortization_schedule m re ls).length) ∧
    (m.monthly_payment - preBal e * m.monthly_rate + entry_extra re ls e.period = preBal e →
      e.payment = preBal e + preBal e * m.monthly_rate ∧
      e.payment = m.monthly_payment + entry_extra re ls e.period ∧
      e.extra = entry_extra re ls e.period ∧
      e.principal = m.monthly_payment - preBal e * m.monthly_rate ∧
      j + 1 = (amortization_schedule m re ls).length) ∧
    (m.monthly_payment - preBal e * m.monthly_rate + entry_extra re ls e.period < preBal e →
      e.payment = m.monthly_payment + entry_extra re ls e.period ∧
      e.extra = entry_extra re ls e.period ∧
      e.principal = m.monthly_payment - preBal e * m.monthly_rate) := by
  rw [amortization_schedule] at he
  rcases schedAux_entry_spec m re ls m.total_periods 1 m.principal j e he with ⟨hE, hF⟩
  rw [amortization_schedule]
  refine ⟨?_, ?_, ?_⟩
  · intro h
    have hcap := mkEntry_eq_cap h
    rw [hcap] at hE
    refine ⟨?_, ?_, ?_, ?_⟩
    · exact congrArg Entry.principal hE
    · exact congrArg Entry.extra hE
    · exact congrArg Entry.payment hE
    · exact hF (le_of_eq (nextBalance_eq_cap h))
  · intro h
    have hnc : ¬ m.monthly_payment - preBal e * m.monthly_rate +
        entry_extra re ls e.period > preBal e := not_lt.2 (le_of_eq h)
    have hnocap := mkEntry_eq_nocap hnc
    rw [hnocap] at hE
    refine ⟨?_, ?_, ?_, ?_, ?_⟩
    · have := congrArg Entry.payment hE
      simp only at this
      rw [this]
      linarith
    · exact congrArg Entry.payment hE
    · exact congrArg Entry.extra hE
    · exact congrArg Entry.principal hE
    · apply hF
      rw [nextBalance_eq_nocap hnc, h]
      simp
  · intro h
    have hnc : ¬ m.monthly_payment - preBal e * m.monthly_rate +
        entry_extra re ls e.period > preBal e := not_lt.2 (le_of_lt h)
    have hnocap := mkEntry_eq_nocap hnc
    rw [hnocap] at hE
    exact ⟨congrArg Entry.payment hE, congrArg Entry.extra hE,
      congrArg Entry.principal hE⟩

/-- Witness for the amended C1 at the first entry (`entryTwoFirst`) of
the no-extra two-period schedule. -/
theorem early_payoff_rule_witness :
    (mortgageTwo.monthly_payment - preBal entryTwoFirst * mortgageTwo.monthly_rate +
        entry_extra 0 [] entryTwoFirst.period > preBal entryTwoFirst →
      entryTwoFirst.principal = preBal entryTwoFirst ∧ entryTwoFirst.extra = 0 ∧
      entryTwoFirst.payment =
        preBal entryTwoFirst + preBal entryTwoFirst * mortgageTwo.monthly_rate ∧
      0 + 1 = (amortization_schedule mortgageTwo 0 []).length) ∧
    (mortgageTwo.monthly_payment - preBal entryTwoFirst * mortgageTwo.monthly_rate +
        entry_extra 0 [] entryTwoFirst.period = preBal entryTwoFirst →
      entryTwoFirst.payment =
        preBal entryTwoFirst + preBal entryTwoFirst * mortgageTwo.monthly_rate ∧
      entryTwoFirst.payment =
        mortgageTwo.monthly_payment + entry_extra 0 [] entryTwoFirst.period ∧
      entryTwoFirst.extra = entry_extra 0 [] entryTwoFirst.period ∧
      entryTwoFirst.principal =
        mortgageTwo.monthly_payment - preBal entryTwoFirst * mortgageTwo.monthly_rate ∧
      0 + 1 = (amortization_schedule mortgageTwo 0 []).length) ∧
    (mortgageTwo.monthly_payment - preBal entryTwoFirst * mortgageTwo.monthly_rate +
        entry_extra 0 [] entryTwoFirst.period < preBal entryTwoFirst →
      entryTwoFirst.payment =
        mortgageTwo.monthly_payment + entry_extra 0 [] entryTwoFirst.period ∧
      entryTwoFirst.extra = entry_extra 0 [] entryTwoFirst.period ∧
      entryTwoFirst.principal =
        mortgageTwo.monthly_payment - preBal entryTwoFirst * mortgageTwo.monthly_rate) := by
  apply early_payoff_rule mortgageTwo 0 [] 0 entryTwoFirst
  norm_num [amortization_schedule, schedAux, mkEntry, nextBalance, entry_extra,
    dictGet, mortgageTwo, entryTwoFirst]

/-- C2 (evaluating the code at the failing input): with
`start_period = 2` on the two-period loan and budget `21`, the uniform
strategy divides the budget by the single remaining period but generates
its schedule with `recurring_extra = 21` applied from period 1: the
period-1 entry— a period strictly before `start_period` — already carries
`extra = 21`. -/
theorem uniform_strategy_ignores_start_period :
    remainingPeriods mortgageTwo 2 = 1 ∧
    (amortization_schedule mortgageTwo
        (21 / ((remainingPeriods mortgageTwo 2 : ℚ))) []).head? =
      some { period := 1, payment := 1651/21, interest := 10, principal := 1000/21,
             extra := 21, balance := 659/21 } := by
  constructor
  · norm_num [remainingPeriods, mortgageTwo]
  · norm_num [amortization_schedule, schedAux, mkEntry, nextBalance, entry_extra,
      dictGet, mortgageTwo, remainingPeriods]

/-! ### Schedules depend on the extras only through the per-period amount -/

theorem mkEntry_congr {m : Mortgage} {re₁ re₂ : ℚ} {ls₁ ls₂ : List (ℕ × ℚ)} {p : ℕ} {b : ℚ}
    (h : entry_extra re₁ ls₁ p = entry_extra re₂ ls₂ p) :
    mkEntry m re₁ ls₁ p b = mkEntry m re₂ ls₂ p b := by
  simp only [mkEntry, h]

theorem nextBalance_congr {m : Mortgage} {re₁ re₂ : ℚ} {ls₁ ls₂ : List (ℕ × ℚ)} {p : ℕ} {b : ℚ}
    (h : entry_extra re₁ ls₁ p = entry_extra re₂ ls₂ p) :
    nextBalance m re₁ ls₁ p b = nextBalance m re₂ ls₂ p b := by
  simp only [nextBalance, h]

theorem schedAux_congr {m : Mortgage} {re₁ re₂ : ℚ} {ls₁ ls₂ : List (ℕ × ℚ)} :
    ∀ fuel p b, (∀ q, p ≤ q → q < p + fuel → entry_extra re₁ ls₁ q = entry_extra re₂ ls₂ q) →
      schedAux m re₁ ls₁ fuel p b = schedAux m re₂ ls₂ fuel p b := by
  intro fuel
  induction fuel with
  | zero => intro p b _; rfl
  | succ fuel ih =>
    intro p b h
    have hp : entry_extra re₁ ls₁ p = entry_extra re₂ ls₂ p := h p (le_refl p) (by omega)
    rw [schedAux_succ, schedAux_succ, mkEntry_congr hp, nextBalance_congr hp]
    by_cases hb : nextBalance m re₂ ls₂ p b ≤ 0
    · rw [if_pos hb, if_pos hb]
    · rw [if_neg hb, if_neg hb,
        ih (p + 1) (nextBalance m re₂ ls₂ p b) (fun q h1 h2 => h q (by omega) (by omega))]

theorem dictGet_filter_ne {d : List (ℕ × ℚ)} {k q : ℕ} (hqk : q ≠ k) :
    dictGet (d.filter (fun kv => kv.1 ≠ k)) q = dictGet d q := by
  induction d with
  | nil => rfl
  | cons kv rest ih =>
    obtain ⟨a, v⟩ := kv
    by_cases hak : a = k
    · subst hak
      rw [List.filter_cons_of_neg (by simp)]
      rw [dictGet, if_neg (by omega)]
      exact ih
    · rw [List.filter_cons_of_pos (by simp [hak])]
      rw [dictGet, dictGet]
      by_cases hqa : q = a
      · rw [if_pos hqa, if_pos hqa]
      · rw [if_neg hqa, if_neg hqa]
        exact ih

/-- C9 (confirmed): a lump sum keyed strictly beyond `total_periods` is
never consumed: removing that key from the mapping leaves the generated
schedule unchanged. -/
theorem lumpsum_beyond_term_ignored (m : Mortgage) (re : ℚ) (d : List (ℕ × ℚ)) (k : ℕ)
    (hk : m.total_periods < k) :
    amortization_schedule m re (d.filter (fun kv => kv.1 ≠ k)) =
      amortization_schedule m re d := by
  rw [amortization_schedule, amortization_schedule]
  apply schedAux_congr
  intro q h1 h2
  rw [entry_extra, entry_extra, dictGet_filter_ne (by omega)]

/-- Witness for C9: a lump sum at period `5` of a two-period loan has no
effect. -/
theorem lumpsum_beyond_term_ignored_witness :
    amortization_schedule mortgageTwo 0
        (([(5, 1000)] : List (ℕ × ℚ)).filter (fun kv => kv.1 ≠ 5)) =
      amortization_schedule mortgageTwo 0 [(5, 1000)] := by
  apply lumpsum_beyond_term_ignored mortgageTwo 0 [(5, 1000)] 5
  norm_num [mortgageTwo]

/-- C7 (confirmed): loan construction derives
`monthly_rate = (annual_rate / 100) / compounds_per_year` and
`total_periods = ⌊years * compounds_per_year⌋`, and computes the periodic
payment by the annuity formula; the formula's denominator is nonzero
whenever the rate is positive and there is at least one period, while a
zero rate makes the division fail (no special case is taken). -/
theorem construction_payment_formula (principal annual_rate years : ℚ) (c : ℕ) :
    (0 < (annual_rate / 100) / (c : ℚ) →
      1 ≤ (⌊years * (c : ℚ)⌋).toNat →
      mkMortgage principal annual_rate years c =
        some { principal := principal, annual_rate := annual_rate / 100, years := years,
               compounds_per_year := c,
               monthly_rate := (annual_rate / 100) / (c : ℚ),
               total_periods := (⌊years * (c : ℚ)⌋).toNat,
               monthly_payment :=
                 annuityPayment principal ((annual_rate / 100) / (c : ℚ))
                   ((⌊years * (c : ℚ)⌋).toNat) }) ∧
    ((annual_rate / 100) / (c : ℚ) = 0 →
      mkMortgage principal annual_rate years c = none) := by
  constructor
  · intro hr hn
    have hden : (1 + (annual_rate / 100) / (c : ℚ)) ^ (⌊years * (c : ℚ)⌋).toNat - 1 ≠ 0 :=
      ne_of_gt (sub_pos.2 (one_lt_pow_one_add hr (by omega)))
    simp only [mkMortgage, calc_periodic_payment, if_neg hden, Option.map_some]
    rfl
  · intro h0
    simp only [mkMortgage, calc_periodic_payment, h0]
    norm_num

/-- Witness for C7: `Mortgage(100, 120, 1/6, 12)` yields the concrete
two-period loan, and a zero annual rate makes construction fail. -/
theorem construction_payment_formula_witness :
    mkMortgage 100 120 (1/6) 12 = some mortgageTwo ∧
    mkMortgage 100 0 (1/6) 12 = none := by
  constructor
  · have h := (construction_payment_formula 100 120 (1/6) 12).1 (by norm_num)
      (by norm_num)
    rw [h]
    have ht : Int.toNat 2 = 2 := rfl
    norm_num [mortgageTwo, annuityPayment, Mortgage.mk.injEq, ht]
  · exact (construction_payment_formula 100 0 (1/6) 12).2 (by norm_num)

/-! ### The optimizer -/

theorem schedule_ne_nil (m : Mortgage) (re : ℚ) (ls : List (ℕ × ℚ))
    (hn : 1 ≤ m.total_periods) :
    amortization_schedule m re ls ≠ [] := by
  obtain ⟨k, hk⟩ : ∃ k, m.total_periods = k + 1 := ⟨m.total_periods - 1, by omega⟩
  rw [amortization_schedule, hk]
  exact schedAux_ne_nil m re ls k 1 m.principal

theorem summarize_isSome (m : Mortgage) (re : ℚ) (ls : List (ℕ × ℚ))
    (hn : 1 ≤ m.total_periods) :
    ∃ s, summarize_schedule (amortization_schedule m re ls) = some s := by
  rcases getLast?_isSome_of_ne_nil (schedule_ne_nil m re ls hn) with ⟨e, he⟩
  exact ⟨_, summarize_schedule_eq_some he⟩

/-- C10 (confirmed): when `start_period` lies strictly beyond the term but
within one compounding year of it, `remaining_periods ≤ 0` (so the
uniform strategy is skipped by its guard), yet the `years` count of the
annual strategy is `ceil` of a number in `(-1, 0]`, i.e. `0`, and
`optimize_extra` fails with the division `budget / years` — after the
single-lump-sum strategy was already evaluated successfully. -/
theorem annual_strategy_division_by_zero (m : Mortgage) (total_extra_budget : ℚ)
    (start_period : ℕ)
    (hc : 1 ≤ m.compounds_per_year) (hn : 1 ≤ m.total_periods)
    (h1 : m.total_periods < start_period)
    (h2 : start_period ≤ m.total_periods + m.compounds_per_year) :
    remainingPeriods m start_period ≤ 0 ∧
    annualYears m start_period = 0 ∧
    (∃ s1, summarize_schedule
      (amortization_schedule m 0 [(start_period, total_extra_budget)]) = some s1) ∧
    optimize_extra m total_extra_budget start_period = none := by
  have hrem : remainingPeriods m start_period ≤ 0 := by
    rw [remainingPeriods]
    omega
  have hremlb : (1 : ℤ) - (m.compounds_per_year : ℤ) ≤ remainingPeriods m start_period := by
    rw [remainingPeriods]
    omega
  have hc0 : (0:ℚ) < (m.compounds_per_year : ℚ) := by
    exact_mod_cast Nat.pos_of_ne_zero (by omega)
  have hyears : annualYears m start_period = 0 := by
    rw [annualYears]
    apply le_antisymm
    · rw [Int.ceil_le]
      have hr0 : ((remainingPeriods m start_period : ℚ)) ≤ 0 := by exact_mod_cast hrem
      have : ((0:ℤ):ℚ) = 0 := by norm_num
      rw [this, div_le_iff₀ hc0]
      linarith
    · have hlt : ((-1 : ℤ) : ℚ) <
          (remainingPeriods m start_period : ℚ) / (m.compounds_per_year : ℚ) := by
        rw [lt_div_iff₀ hc0]
        have hlb : (1 : ℚ) - (m.compounds_per_year : ℚ) ≤
            (remainingPeriods m start_period : ℚ) := by exact_mod_cast hremlb
        push_cast
        linarith
      have := Int.lt_ceil.2 hlt
      omega
  rcases summarize_isSome m 0 [(start_period, total_extra_budget)] hn with ⟨s1, hs1⟩
  refine ⟨hrem, hyears, ⟨s1, hs1⟩, ?_⟩
  rw [optimize_extra, hs1]
  simp only [if_neg (not_lt.2 hrem), if_pos hyears]

/-- Witness for C10: `start_period = 2` on the one-period yearly loan. -/
theorem annual_strategy_division_by_zero_witness :
    remainingPeriods mortgageYearly 2 ≤ 0 ∧
    annualYears mortgageYearly 2 = 0 ∧
    (∃ s1, summarize_schedule (amortization_schedule mortgageYearly 0 [(2, 5)]) = some s1) ∧
    optimize_extra mortgageYearly 5 2 = none := by
  apply annual_strategy_division_by_zero mortgageYearly 5 2
  · norm_num [mortgageYearly]
  · norm_num [mortgageYearly]
  · norm_num [mortgageYearly]
  · norm_num [mortgageYearly]

theorem dictGet_eq_zero {d : List (ℕ × ℚ)} (h : ∀ kv ∈ d, kv.2 = 0) (q : ℕ) :
    dictGet d q = 0 := by
  induction d with
  | nil => rfl
  | cons kv rest ih =>
    obtain ⟨k, v⟩ := kv
    by_cases hq : q = k
    · simpa [dictGet, hq] using h (k, v) (List.mem_cons_self _ _)
    · simp only [dictGet, if_neg hq]
      exact ih (fun kv hkv => h kv (List.mem_cons_of_mem _ hkv))

theorem minByTI_three (c1 c2 c3 : String × Summary) :
    minByTI [c1, c2, c3] =
      some (if c3.2.total_interest <
              (if c2.2.total_interest < c1.2.total_interest then c2 else c1).2.total_interest
            then c3
            else if c2.2.total_interest < c1.2.total_interest then c2 else c1) := rfl

/-- C3 (confirmed): for a loan with positive rate, at least one period and
at least one compounding per year, a non-negative budget and a start
period inside the term, `optimize_extra` evaluates all three strategies
(whose summaries `s1`, `s2`, `s3` are exactly those obtained by directly
generating and summarizing each strategy's schedule) and returns the one
with the numerically smallest `total_interest`, ties broken in the fixed
order single lump-sum, uniform, annual; in particular, for a zero budget
all candidates equal the no-extra baseline and the single lump-sum is
selected. -/
theorem optimize_extra_selects_min (m : Mortgage) (total_extra_budget : ℚ)
    (start_period : ℕ)
    (hr : 0 < m.monthly_rate) (hn : 1 ≤ m.total_periods)
    (hc : 1 ≤ m.compounds_per_year) (hb : 0 ≤ total_extra_budget)
    (hsp1 : 1 ≤ start_period) (hsp2 : start_period ≤ m.total_periods) :
    ∃ s1 s2 s3,
      summarize_schedule
        (amortization_schedule m 0 [(start_period, total_extra_budget)]) = some s1 ∧
      summarize_schedule (amortization_schedule m
        (total_extra_budget / ((remainingPeriods m start_period : ℚ))) []) = some s2 ∧
      summarize_schedule (amortization_schedule m 0
        (annualLumpsums m total_extra_budget start_period)) = some s3 ∧
      ((optimize_extra m total_extra_budget start_period = some ("single_lumpsum", s1) ∧
          s1.total_interest ≤ s2.total_interest ∧
          s1.total_interest ≤ s3.total_interest) ∨
       (optimize_extra m total_extra_budget start_period = some ("uniform_monthly", s2) ∧
          s2.total_interest < s1.total_interest ∧
          s2.total_interest ≤ s3.total_interest) ∨
       (optimize_extra m total_extra_budget start_period = some ("annual_lumpsum", s3) ∧
          s3.total_interest < s1.total_interest ∧
          s3.total_interest < s2.total_interest)) ∧
      (total_extra_budget = 0 →
        ∃ s0, summarize_schedule (amortization_schedule m 0 []) = some s0 ∧
          s1 = s0 ∧ s2 = s0 ∧ s3 = s0 ∧
          optimize_extra m total_extra_budget start_period =
            some ("single_lumpsum", s0)) := by
  rcases summarize_isSome m 0 [(start_period, total_extra_budget)] hn with ⟨s1, hq1⟩
  rcases summarize_isSome m
    (total_extra_budget / ((remainingPeriods m start_period : ℚ))) [] hn with ⟨s2, hq2⟩
  rcases summarize_isSome m 0 (annualLumpsums m total_extra_budget start_period) hn
    with ⟨s3, hq3⟩
  have hrem : 0 < remainingPeriods m start_period := by
    rw [remainingPeriods]
    omega
  have hyne : ¬ annualYears m start_period = 0 := by
    have hc0 : (0:ℚ) < (m.compounds_per_year : ℚ) := by
      exact_mod_cast Nat.pos_of_ne_zero (by omega)
    have hrpos : (0:ℚ) < (remainingPeriods m start_period : ℚ) := by exact_mod_cast hrem
    have : 0 < annualYears m start_period := by
      rw [annualYears]
      exact Int.ceil_pos.2 (div_pos hrpos hc0)
    omega
  have hopt : optimize_extra m total_extra_budget start_period =
      minByTI [("single_lumpsum", s1), ("uniform_monthly", s2), ("annual_lumpsum", s3)] := by
    rw [optimize_extra, hq1]
    simp only [if_pos hrem]
    rw [hq2]
    simp only [Option.map_some']
    rw [if_neg hyne, hq3]
    rfl
  have hsel :
      (optimize_extra m total_extra_budget start_period = some ("single_lumpsum", s1) ∧
        s1.total_interest ≤ s2.total_interest ∧ s1.total_interest ≤ s3.total_interest) ∨
      (optimize_extra m total_extra_budget start_period = some ("uniform_monthly", s2) ∧
        s2.total_interest < s1.total_interest ∧ s2.total_interest ≤ s3.total_interest) ∨
      (optimize_extra m total_extra_budget start_period = some ("annual_lumpsum", s3) ∧
        s3.total_interest < s1.total_interest ∧ s3.total_interest < s2.total_interest) := by
    rw [hopt, minByTI_three]
    dsimp only
    by_cases h21 : s2.total_interest < s1.total_interest
    · rw [if_pos h21]
      by_cases h32 : s3.total_interest < s2.total_interest
      · right; right
        exact ⟨by rw [if_pos h32], lt_trans h32 h21, h32⟩
      · right; left
        exact ⟨by rw [if_neg h32], h21, not_lt.1 h32⟩
    · rw [if_neg h21]
      by_cases h31 : s3.total_interest < s1.total_interest
      · right; right
        exact ⟨by rw [if_pos h31], h31, lt_of_lt_of_le h31 (not_lt.1 h21)⟩
      · left
        exact ⟨by rw [if_neg h31], not_lt.1 h21, not_lt.1 h31⟩
  refine ⟨s1, s2, s3, hq1, hq2, hq3, hsel, ?_⟩
  intro h0
  subst h0
  have e1 : amortization_schedule m 0 [(start_period, (0:ℚ))] =
      amortization_schedule m 0 [] := by
    rw [amortization_schedule, amortization_schedule]
    apply schedAux_congr
    intro q _ _
    have hz : dictGet [(start_period, (0:ℚ))] q = 0 := by
      by_cases hq : q = start_period <;> simp [dictGet, hq]
    rw [entry_extra, entry_extra, hz, dictGet]
  have hq1b : summarize_schedule (amortization_schedule m 0 []) = some s1 := by
    rw [← e1]
    exact hq1
  have hq2b : summarize_schedule (amortization_schedule m 0 []) = some s2 := by
    rw [← zero_div ((remainingPeriods m start_period : ℚ))]
    exact hq2
  have hvals : ∀ kv ∈ annualLumpsums m 0 start_period, kv.2 = 0 := by
    intro kv hkv
    rw [annualLumpsums] at hkv
    rcases List.mem_filterMap.1 hkv with ⟨i, _, hf⟩
    by_cases hle : start_period + i * m.compounds_per_year ≤ m.total_periods
    · rw [if_pos hle, Option.some_inj] at hf
      rw [← hf]
      simp [zero_div]
    · rw [if_neg hle] at hf
      exact absurd hf (by simp)
  have e3 : amortization_schedule m 0 (annualLumpsums m 0 start_period) =
      amortization_schedule m 0 [] := by
    rw [amortization_schedule, amortization_schedule]
    apply schedAux_congr
    intro q _ _
    rw [entry_extra, entry_extra, dictGet_eq_zero hvals, dictGet]
  have hq3b : summarize_schedule (amortization_schedule m 0 []) = some s3 := by
    rw [← e3]
    exact hq3
  have hs21 : s2 = s1 := by
    have := hq2b.symm.trans hq1b
    exact Option.some_inj.1 this
  have hs31 : s3 = s1 := by
    have := hq3b.symm.trans hq1b
    exact Option.some_inj.1 this
  refine ⟨s1, hq1b, rfl, hs21, hs31, ?_⟩
  rcases hsel with ⟨hres, _, _⟩ | ⟨hres, hlt, _⟩ | ⟨hres, hlt, _⟩
  · exact hres
  · rw [hs21] at hlt
    exact absurd hlt (lt_irrefl _)
  · rw [hs31] at hlt
    exact absurd hlt (lt_irrefl _)

/-- Witness for C3 at the concrete two-period loan with budget `10` and
`start_period = 1`. -/
theorem optimize_extra_selects_min_witness :
    ∃ s1 s2 s3,
      summarize_schedule (amortization_schedule mortgageTwo 0 [(1, 10)]) = some s1 ∧
      summarize_schedule (amortization_schedule mortgageTwo
        (10 / ((remainingPeriods mortgageTwo 1 : ℚ))) []) = some s2 ∧
      summarize_schedule (amortization_schedule mortgageTwo 0
        (annualLumpsums mortgageTwo 10 1)) = some s3 ∧
      ((optimize_extra mortgageTwo 10 1 = some ("single_lumpsum", s1) ∧
          s1.total_interest ≤ s2.total_interest ∧
          s1.total_interest ≤ s3.total_interest) ∨
       (optimize_extra mortgageTwo 10 1 = some ("uniform_monthly", s2) ∧
          s2.total_interest < s1.total_interest ∧
          s2.total_interest ≤ s3.total_interest) ∨
       (optimize_extra mortgageTwo 10 1 = some ("annual_lumpsum", s3) ∧
          s3.total_interest < s1.total_interest ∧
          s3.total_interest < s2.total_interest)) ∧
      ((10:ℚ) = 0 →
        ∃ s0, summarize_schedule (amortization_schedule mortgageTwo 0 []) = some s0 ∧
          s1 = s0 ∧ s2 = s0 ∧ s3 = s0 ∧
          optimize_extra mortgageTwo 10 1 = some ("single_lumpsum", s0)) := by
  apply optimize_extra_selects_min mortgageTwo 10 1
  · norm_num [mortgageTwo]
  · norm_num [mortgageTwo]
  · norm_num [mortgageTwo]
  · norm_num
  · norm_num
  · norm_num [mortgageTwo]
